import Mathlib

/-!
Verification of the fixed-size gravitational N-body simulator (`main.cpp`).

The C++ program keeps a global structure-of-arrays `Stars` with `NUM = 48`
bodies (positions `px,py,pz`, velocities `vx,vy,vz`, `mass`, each a
`std::array<float, NUM>`), advances it with `step()` (an O(N²) velocity
accumulation pass followed by a separate position pass) and measures total
energy with `calc()`.  We embed the state as a structure of functions
`Fin NUM → α`, real-valued for the two kernels (idealised arithmetic in ℝ
standing for the single-precision arithmetic of the source, with `Real.sqrt`
for `std::sqrt`), and rational-valued for the exact, division-only
initialisation code (`frand` / `init`), which we keep computable so that
concrete counterexamples evaluate by `decide` / `norm_num`.

The loops of `step` and `calc` are embedded operationally as `List.foldl`
over `List.finRange NUM`, mirroring the source statement by statement
(including the in-place writes of the velocity pass, via `Function.update`),
so that the "snapshot" discipline of the velocity pass is a theorem about
the fold, not an assumption baked into the definition.
-/

/-- `constexpr std::size_t NUM = 48;` — the fixed body count. -/
abbrev NUM : ℕ := 48

/-- The structure-of-arrays state `struct Stars`, generic in the scalar type:
`ℝ` for the kernels, `ℚ` for the exact initialisation code. -/
@[ext]
structure Stars (α : Type) where
  px : Fin NUM → α
  py : Fin NUM → α
  pz : Fin NUM → α
  vx : Fin NUM → α
  vy : Fin NUM → α
  vz : Fin NUM → α
  mass : Fin NUM → α

/-- `constexpr float G = 0.001f;` -/
noncomputable def G : ℝ := 0.001

/-- `constexpr float eps = 0.001f;` -/
noncomputable def eps : ℝ := 0.001

/-- `constexpr float dt = 0.01f;` -/
noncomputable def dt : ℝ := 0.01

/-- `constexpr float eps_sqr = eps * eps;` -/
noncomputable def eps_sqr : ℝ := eps * eps

/-- `constexpr float G_dt = G * dt;` -/
noncomputable def G_dt : ℝ := G * dt

/-- The softened squared distance computed identically in the inner loops of
both `step` (`d2 = dx*dx + dy*dy + dz*dz + epss`) and `calc`
(`d2 = dx*dx + dy*dy + dz*dz + eps*eps`), seen from body `i` towards body `j`. -/
noncomputable def d2 (s : Stars ℝ) (i j : Fin NUM) : ℝ :=
  (s.px j - s.px i) * (s.px j - s.px i) +
  (s.py j - s.py i) * (s.py j - s.py i) +
  (s.pz j - s.pz i) * (s.pz j - s.pz i) + eps * eps

/-- One iteration of the inner loop of `step`: the three velocity-delta
products `(dx*xx, dy*xx, dz*xx)` contributed by body `j` to body `i`, where
`d2 *= std::sqrt(d2)` and `xx = (1 / d2) * t * stars.mass[j]` with
`t = G * dt`. -/
noncomputable def contrib (s : Stars ℝ) (i j : Fin NUM) : ℝ × ℝ × ℝ :=
  let dx := s.px j - s.px i
  let dy := s.py j - s.py i
  let dz := s.pz j - s.pz i
  let d2v := d2 s i j
  let d2c := d2v * Real.sqrt d2v
  let xx := (1 / d2c) * G_dt * s.mass j
  (dx * xx, dy * xx, dz * xx)

/-- The inner loop of `step` for body `i`: starting from the local
accumulators `vx = vy = vz = 0.0f`, fold the contributions of every `j`
(including `j = i`) in loop order. -/
noncomputable def innerSum (s : Stars ℝ) (i : Fin NUM) : ℝ × ℝ × ℝ :=
  (List.finRange NUM).foldl
    (fun v j =>
      (v.1 + (contrib s i j).1, v.2.1 + (contrib s i j).2.1,
        v.2.2 + (contrib s i j).2.2))
    (0, 0, 0)

/-- One iteration of the first (velocity) loop of `step`: run the inner loop
for body `i` against the current state and add the accumulated delta into
`stars.vx[i]`, `stars.vy[i]`, `stars.vz[i]` in place. -/
noncomputable def stepVelOnce (st : Stars ℝ) (i : Fin NUM) : Stars ℝ :=
  let v := innerSum st i
  { st with
    vx := Function.update st.vx i (st.vx i + v.1)
    vy := Function.update st.vy i (st.vy i + v.2.1)
    vz := Function.update st.vz i (st.vz i + v.2.2) }

/-- The first loop of `step`: bodies `i = 0, …, NUM-1` in order. -/
noncomputable def stepVelLoop (s : Stars ℝ) : Stars ℝ :=
  (List.finRange NUM).foldl stepVelOnce s

/-- One iteration of the second (position) loop of `step`:
`stars.px[i] += stars.vx[i] * dt;` and likewise for `py`, `pz`. -/
noncomputable def stepPosOnce (st : Stars ℝ) (i : Fin NUM) : Stars ℝ :=
  { st with
    px := Function.update st.px i (st.px i + st.vx i * dt)
    py := Function.update st.py i (st.py i + st.vy i * dt)
    pz := Function.update st.pz i (st.pz i + st.vz i * dt) }

/-- The second loop of `step`. -/
noncomputable def stepPosLoop (s : Stars ℝ) : Stars ℝ :=
  (List.finRange NUM).foldl stepPosOnce s

/-- `void step()`: the velocity loop followed by the position loop. -/
noncomputable def step (s : Stars ℝ) : Stars ℝ :=
  stepPosLoop (stepVelLoop s)

/-- One kinetic-energy summand of `calc`:
`stars.mass[i] * v2 * 0.5f` with `v2 = vx[i]² + vy[i]² + vz[i]²`. -/
noncomputable def kinTerm (s : Stars ℝ) (i : Fin NUM) : ℝ :=
  s.mass i * (s.vx i * s.vx i + s.vy i * s.vy i + s.vz i * s.vz i) * 0.5

/-- One potential-energy summand of `calc` (the amount subtracted for the
ordered pair `(i, j)`): `stars.mass[j] * stars.mass[i] * G * 0.5f * s_d2`
with `s_d2 = 1 / std::sqrt(d2)`. -/
noncomputable def potTerm (s : Stars ℝ) (i j : Fin NUM) : ℝ :=
  s.mass j * s.mass i * G * 0.5 * (1 / Real.sqrt (d2 s i j))

/-- `float calc()` embedded operationally: `energy` starts at `0`; for each
`i` the kinetic term is added and then the inner loop over all `j` subtracts
the potential terms, in source order. -/
noncomputable def calcEnergy (s : Stars ℝ) : ℝ :=
  (List.finRange NUM).foldl
    (fun e i =>
      (List.finRange NUM).foldl (fun e2 j => e2 - potTerm s i j)
        (e + kinTerm s i))
    0

/-- `calc` as a state transformer: the function body reads `stars` but never
assigns to any of its arrays, so the state component of the result is the
input state unchanged. -/
noncomputable def calcRun (s : Stars ℝ) : ℝ × Stars ℝ :=
  (calcEnergy s, s)

/-- `float frand()` — `(float)std::rand() / (float)RAND_MAX * 2.0f - 1.0f`,
exactly over ℚ, with the `std::rand()` result `r` and `RAND_MAX` `rmax`
passed in. -/
def frand (r rmax : ℕ) : ℚ :=
  (r : ℚ) / (rmax : ℚ) * 2 - 1

/-- `void init()`: body `i` draws its seven attributes from seven consecutive
`std::rand()` calls, in source order `px, py, pz, vx, vy, vz, mass`, with
`stars.mass[i] = frand() + 1`.  `seq k` is the result of the `k`-th
`std::rand()` call and `rmax` is `RAND_MAX`. -/
def init (seq : ℕ → ℕ) (rmax : ℕ) : Stars ℚ where
  px := fun i => frand (seq (7 * (i : ℕ))) rmax
  py := fun i => frand (seq (7 * (i : ℕ) + 1)) rmax
  pz := fun i => frand (seq (7 * (i : ℕ) + 2)) rmax
  vx := fun i => frand (seq (7 * (i : ℕ) + 3)) rmax
  vy := fun i => frand (seq (7 * (i : ℕ) + 4)) rmax
  vz := fun i => frand (seq (7 * (i : ℕ) + 5)) rmax
  mass := fun i => frand (seq (7 * (i : ℕ) + 6)) rmax + 1

/-- The spec's description of `step` (§4.2, invariants of §3): every
velocity delta is computed from the position snapshot taken at entry to the
step, all velocities are then final, and in a fully separate second pass each
position is incremented by the just-updated velocity times `dt`.  Written
with simultaneous (snapshot) semantics; masses are untouched. -/
noncomputable def stepSpec (s : Stars ℝ) : Stars ℝ :=
  let vxn : Fin NUM → ℝ := fun i => s.vx i + ∑ j, (contrib s i j).1
  let vyn : Fin NUM → ℝ := fun i => s.vy i + ∑ j, (contrib s i j).2.1
  let vzn : Fin NUM → ℝ := fun i => s.vz i + ∑ j, (contrib s i j).2.2
  { px := fun i => s.px i + vxn i * dt
    py := fun i => s.py i + vyn i * dt
    pz := fun i => s.pz i + vzn i * dt
    vx := vxn
    vy := vyn
    vz := vzn
    mass := s.mass }

/-- A concrete state with every attribute `0`, used to instantiate
universally quantified theorems at an explicit input. -/
noncomputable def sZero : Stars ℝ :=
  ⟨fun _ => 0, fun _ => 0, fun _ => 0, fun _ => 0, fun _ => 0, fun _ => 0,
    fun _ => 0⟩

/-- A concrete state with zero positions and velocities and unit masses. -/
noncomputable def sOne : Stars ℝ :=
  ⟨fun _ => 0, fun _ => 0, fun _ => 0, fun _ => 0, fun _ => 0, fun _ => 0,
    fun _ => 1⟩

/-! ### Generic fold lemmas -/

/-- A left fold that adds `f x` at each element is the starting value plus the
sum of `f` over the list. -/
lemma foldl_eq_add_sum {α : Type} (g : ℝ → α → ℝ) (f : α → ℝ)
    (hg : ∀ e x, g e x = e + f x) :
    ∀ (l : List α) (a : ℝ), l.foldl g a = a + (l.map f).sum := by
  intro l
  induction l with
  | nil => intro a; simp
  | cons x xs ih =>
    intro a
    simp only [List.foldl_cons, List.map_cons, List.sum_cons, hg, ih, add_assoc]

/-- A left fold that subtracts `f x` at each element is the starting value
minus the sum of `f` over the list. -/
lemma foldl_eq_sub_sum {α : Type} (g : ℝ → α → ℝ) (f : α → ℝ)
    (hg : ∀ e x, g e x = e - f x) :
    ∀ (l : List α) (a : ℝ), l.foldl g a = a - (l.map f).sum := by
  intro l
  induction l with
  | nil => intro a; simp
  | cons x xs ih =>
    intro a
    simp only [List.foldl_cons, List.map_cons, List.sum_cons, hg, ih]
    ring

/-- A left fold accumulating three component sums in a triple. -/
lemma foldl_triple {α : Type} (f g h : α → ℝ) :
    ∀ (l : List α) (a b c : ℝ),
      l.foldl (fun v x => (v.1 + f x, v.2.1 + g x, v.2.2 + h x)) (a, b, c) =
        (a + (l.map f).sum, b + (l.map g).sum, c + (l.map h).sum) := by
  intro l
  induction l with
  | nil => intro a b c; simp
  | cons x xs ih =>
    intro a b c
    simp only [List.foldl_cons, List.map_cons, List.sum_cons, ih, add_assoc]

/-! ### Characterisation of the inner loop -/

/-- The inner loop of `step` accumulates exactly the per-`j` contributions,
componentwise. -/
lemma innerSum_eq (s : Stars ℝ) (i : Fin NUM) :
    innerSum s i =
      (∑ j, (contrib s i j).1, ∑ j, (contrib s i j).2.1,
        ∑ j, (contrib s i j).2.2) := by
  unfold innerSum
  rw [foldl_triple]
  simp [Fin.sum_univ_def]

/-- `contrib` reads only positions and masses. -/
lemma contrib_congr {s t : Stars ℝ} (hpx : t.px = s.px) (hpy : t.py = s.py)
    (hpz : t.pz = s.pz) (hm : t.mass = s.mass) : contrib t = contrib s := by
  funext i j
  unfold contrib d2
  rw [hpx, hpy, hpz, hm]

/-- `innerSum` reads only positions and masses. -/
lemma innerSum_congr {s t : Stars ℝ} (hpx : t.px = s.px) (hpy : t.py = s.py)
    (hpz : t.pz = s.pz) (hm : t.mass = s.mass) : innerSum t = innerSum s := by
  funext i
  unfold innerSum
  rw [contrib_congr hpx hpy hpz hm]

/-! ### The velocity loop: frame and value -/

/-- The velocity loop never writes positions or masses. -/
lemma velFold_frame :
    ∀ (l : List (Fin NUM)) (st : Stars ℝ),
      (l.foldl stepVelOnce st).px = st.px ∧
      (l.foldl stepVelOnce st).py = st.py ∧
      (l.foldl stepVelOnce st).pz = st.pz ∧
      (l.foldl stepVelOnce st).mass = st.mass := by
  intro l
  induction l with
  | nil => intro st; exact ⟨rfl, rfl, rfl, rfl⟩
  | cons x xs ih => intro st; exact ih (stepVelOnce st x)

/-- Folding the velocity pass over a duplicate-free index list, starting from
any state whose positions and masses agree with the snapshot `s`, adds to
`vx i` exactly the inner-loop sum evaluated on `s` — once, when `i` is in the
list. -/
lemma velFold_vx (s : Stars ℝ) :
    ∀ (l : List (Fin NUM)), l.Nodup →
      ∀ (st : Stars ℝ), st.px = s.px → st.py = s.py → st.pz = s.pz →
        st.mass = s.mass → ∀ i,
          (l.foldl stepVelOnce st).vx i =
            if i ∈ l then st.vx i + (innerSum s i).1 else st.vx i := by
  intro l
  induction l with
  | nil => intro _ st _ _ _ _ i; simp
  | cons x xs ih =>
    intro hnd st hpx hpy hpz hm i
    have hxnot : x ∉ xs := (List.nodup_cons.mp hnd).1
    have hnd' : xs.Nodup := (List.nodup_cons.mp hnd).2
    have hsum : innerSum st = innerSum s := innerSum_congr hpx hpy hpz hm
    rw [List.foldl_cons, ih hnd' (stepVelOnce st x) hpx hpy hpz hm i]
    by_cases hix : i = x
    · subst hix
      rw [if_neg hxnot, if_pos (List.mem_cons_self i xs)]
      simp [stepVelOnce, hsum]
    · have hvx : (stepVelOnce st x).vx i = st.vx i := by
        simp [stepVelOnce, Function.update_noteq hix]
      by_cases hmem : i ∈ xs
      · rw [if_pos hmem, if_pos (List.mem_cons_of_mem x hmem), hvx]
      · rw [if_neg hmem, if_neg (by simp [List.mem_cons, hix, hmem]), hvx]

/-- As `velFold_vx`, for the `vy` component. -/
lemma velFold_vy (s : Stars ℝ) :
    ∀ (l : List (Fin NUM)), l.Nodup →
      ∀ (st : Stars ℝ), st.px = s.px → st.py = s.py → st.pz = s.pz →
        st.mass = s.mass → ∀ i,
          (l.foldl stepVelOnce st).vy i =
            if i ∈ l then st.vy i + (innerSum s i).2.1 else st.vy i := by
  intro l
  induction l with
  | nil => intro _ st _ _ _ _ i; simp
  | cons x xs ih =>
    intro hnd st hpx hpy hpz hm i
    have hxnot : x ∉ xs := (List.nodup_cons.mp hnd).1
    have hnd' : xs.Nodup := (List.nodup_cons.mp hnd).2
    have hsum : innerSum st = innerSum s := innerSum_congr hpx hpy hpz hm
    rw [List.foldl_cons, ih hnd' (stepVelOnce st x) hpx hpy hpz hm i]
    by_cases hix : i = x
    · subst hix
      rw [if_neg hxnot, if_pos (List.mem_cons_self i xs)]
      simp [stepVelOnce, hsum]
    · have hvy : (stepVelOnce st x).vy i = st.vy i := by
        simp [stepVelOnce, Function.update_noteq hix]
      by_cases hmem : i ∈ xs
      · rw [if_pos hmem, if_pos (List.mem_cons_of_mem x hmem), hvy]
      · rw [if_neg hmem, if_neg (by simp [List.mem_cons, hix, hmem]), hvy]

/-- As `velFold_vx`, for the `vz` component. -/
lemma velFold_vz (s : Stars ℝ) :
    ∀ (l : List (Fin NUM)), l.Nodup →
      ∀ (st : Stars ℝ), st.px = s.px → st.py = s.py → st.pz = s.pz →
        st.mass = s.mass → ∀ i,
          (l.foldl stepVelOnce st).vz i =
            if i ∈ l then st.vz i + (innerSum s i).2.2 else st.vz i := by
  intro l
  induction l with
  | nil => intro _ st _ _ _ _ i; simp
  | cons x xs ih =>
    intro hnd st hpx hpy hpz hm i
    have hxnot : x ∉ xs := (List.nodup_cons.mp hnd).1
    have hnd' : xs.Nodup := (List.nodup_cons.mp hnd).2
    have hsum : innerSum st = innerSum s := innerSum_congr hpx hpy hpz hm
    rw [List.foldl_cons, ih hnd' (stepVelOnce st x) hpx hpy hpz hm i]
    by_cases hix : i = x
    · subst hix
      rw [if_neg hxnot, if_pos (List.mem_cons_self i xs)]
      simp [stepVelOnce, hsum]
    · have hvz : (stepVelOnce st x).vz i = st.vz i := by
        simp [stepVelOnce, Function.update_noteq hix]
      by_cases hmem : i ∈ xs
      · rw [if_pos hmem, if_pos (List.mem_cons_of_mem x hmem), hvz]
      · rw [if_neg hmem, if_neg (by simp [List.mem_cons, hix, hmem]), hvz]

/-! ### The position loop: frame and value -/

/-- The position loop never writes velocities or masses. -/
lemma posFold_frame :
    ∀ (l : List (Fin NUM)) (st : Stars ℝ),
      (l.foldl stepPosOnce st).vx = st.vx ∧
      (l.foldl stepPosOnce st).vy = st.vy ∧
      (l.foldl stepPosOnce st).vz = st.vz ∧
      (l.foldl stepPosOnce st).mass = st.mass := by
  intro l
  induction l with
  | nil => intro st; exact ⟨rfl, rfl, rfl, rfl⟩
  | cons x xs ih => intro st; exact ih (stepPosOnce st x)

/-- Folding the position pass over a duplicate-free index list adds
`vx i * dt` to `px i` exactly once, when `i` is in the list; the velocities
read are the (unchanged) entry velocities. -/
lemma posFold_px :
    ∀ (l : List (Fin NUM)), l.Nodup → ∀ (st : Stars ℝ) (i : Fin NUM),
      (l.foldl stepPosOnce st).px i =
        if i ∈ l then st.px i + st.vx i * dt else st.px i := by
  intro l
  induction l with
  | nil => intro _ st i; simp
  | cons x xs ih =>
    intro hnd st i
    have hxnot : x ∉ xs := (List.nodup_cons.mp hnd).1
    have hnd' : xs.Nodup := (List.nodup_cons.mp hnd).2
    rw [List.foldl_cons, ih hnd' (stepPosOnce st x) i]
    by_cases hix : i = x
    · subst hix
      rw [if_neg hxnot, if_pos (List.mem_cons_self i xs)]
      simp [stepPosOnce]
    · have hpx : (stepPosOnce st x).px i = st.px i := by
        simp [stepPosOnce, Function.update_noteq hix]
      have hvx : (stepPosOnce st x).vx i = st.vx i := rfl
      rw [hpx, hvx]
      by_cases hmem : i ∈ xs
      · rw [if_pos hmem, if_pos (List.mem_cons_of_mem x hmem)]
      · rw [if_neg hmem, if_neg (by simp [List.mem_cons, hix, hmem])]

/-- As `posFold_px`, for the `py` component. -/
lemma posFold_py :
    ∀ (l : List (Fin NUM)), l.Nodup → ∀ (st : Stars ℝ) (i : Fin NUM),
      (l.foldl stepPosOnce st).py i =
        if i ∈ l then st.py i + st.vy i * dt else st.py i := by
  intro l
  induction l with
  | nil => intro _ st i; simp
  | cons x xs ih =>
    intro hnd st i
    have hxnot : x ∉ xs := (List.nodup_cons.mp hnd).1
    have hnd' : xs.Nodup := (List.nodup_cons.mp hnd).2
    rw [List.foldl_cons, ih hnd' (stepPosOnce st x) i]
    by_cases hix : i = x
    · subst hix
      rw [if_neg hxnot, if_pos (List.mem_cons_self i xs)]
      simp [stepPosOnce]
    · have hpy : (stepPosOnce st x).py i = st.py i := by
        simp [stepPosOnce, Function.update_noteq hix]
      have hvy : (stepPosOnce st x).vy i = st.vy i := rfl
      rw [hpy, hvy]
      by_cases hmem : i ∈ xs
      · rw [if_pos hmem, if_pos (List.mem_cons_of_mem x hmem)]
      · rw [if_neg hmem, if_neg (by simp [List.mem_cons, hix, hmem])]

/-- As `posFold_px`, for the `pz` component. -/
lemma posFold_pz :
    ∀ (l : List (Fin NUM)), l.Nodup → ∀ (st : Stars ℝ) (i : Fin NUM),
      (l.foldl stepPosOnce st).pz i =
        if i ∈ l then st.pz i + st.vz i * dt else st.pz i := by
  intro l
  induction l with
  | nil => intro _ st i; simp
  | cons x xs ih =>
    intro hnd st i
    have hxnot : x ∉ xs := (List.nodup_cons.mp hnd).1
    have hnd' : xs.Nodup := (List.nodup_cons.mp hnd).2
    rw [List.foldl_cons, ih hnd' (stepPosOnce st x) i]
    by_cases hix : i = x
    · subst hix
      rw [if_neg hxnot, if_pos (List.mem_cons_self i xs)]
      simp [stepPosOnce]
    · have hpz : (stepPosOnce st x).pz i = st.pz i := by
        simp [stepPosOnce, Function.update_noteq hix]
      have hvz : (stepPosOnce st x).vz i = st.vz i := rfl
      rw [hpz, hvz]
      by_cases hmem : i ∈ xs
      · rw [if_pos hmem, if_pos (List.mem_cons_of_mem x hmem)]
      · rw [if_neg hmem, if_neg (by simp [List.mem_cons, hix, hmem])]

/-! ### Characterisation of `step` -/

/-- After the velocity loop, `vx i` is the entry velocity plus the inner-loop
sum over the entry position snapshot. -/
lemma stepVelLoop_vx (s : Stars ℝ) (i : Fin NUM) :
    (stepVelLoop s).vx i = s.vx i + (innerSum s i).1 := by
  unfold stepVelLoop
  rw [velFold_vx s (List.finRange NUM) (List.nodup_finRange NUM) s rfl rfl rfl
      rfl i]
  simp [List.mem_finRange]

/-- As `stepVelLoop_vx`, for `vy`. -/
lemma stepVelLoop_vy (s : Stars ℝ) (i : Fin NUM) :
    (stepVelLoop s).vy i = s.vy i + (innerSum s i).2.1 := by
  unfold stepVelLoop
  rw [velFold_vy s (List.finRange NUM) (List.nodup_finRange NUM) s rfl rfl rfl
      rfl i]
  simp [List.mem_finRange]

/-- As `stepVelLoop_vx`, for `vz`. -/
lemma stepVelLoop_vz (s : Stars ℝ) (i : Fin NUM) :
    (stepVelLoop s).vz i = s.vz i + (innerSum s i).2.2 := by
  unfold stepVelLoop
  rw [velFold_vz s (List.finRange NUM) (List.nodup_finRange NUM) s rfl rfl rfl
      rfl i]
  simp [List.mem_finRange]

/-- `step` does not change velocities after the velocity loop. -/
lemma step_vx (s : Stars ℝ) (i : Fin NUM) :
    (step s).vx i = s.vx i + ∑ j, (contrib s i j).1 := by
  unfold step stepPosLoop
  rw [(posFold_frame (List.finRange NUM) (stepVelLoop s)).1,
    stepVelLoop_vx, innerSum_eq]

/-- As `step_vx`, for `vy`. -/
lemma step_vy (s : Stars ℝ) (i : Fin NUM) :
    (step s).vy i = s.vy i + ∑ j, (contrib s i j).2.1 := by
  unfold step stepPosLoop
  rw [(posFold_frame (List.finRange NUM) (stepVelLoop s)).2.1,
    stepVelLoop_vy, innerSum_eq]

/-- As `step_vx`, for `vz`. -/
lemma step_vz (s : Stars ℝ) (i : Fin NUM) :
    (step s).vz i = s.vz i + ∑ j, (contrib s i j).2.2 := by
  unfold step stepPosLoop
  rw [(posFold_frame (List.finRange NUM) (stepVelLoop s)).2.2.1,
    stepVelLoop_vz, innerSum_eq]

/-- Each position is incremented by the just-updated velocity times `dt`. -/
lemma step_px (s : Stars ℝ) (i : Fin NUM) :
    (step s).px i = s.px i + (step s).vx i * dt := by
  have h1 : (step s).px i =
      (stepVelLoop s).px i + (stepVelLoop s).vx i * dt := by
    unfold step stepPosLoop
    rw [posFold_px (List.finRange NUM) (List.nodup_finRange NUM)
        (stepVelLoop s) i, if_pos (List.mem_finRange i)]
  have h2 : (stepVelLoop s).px i = s.px i :=
    congrFun (velFold_frame (List.finRange NUM) s).1 i
  have h3 : (step s).vx i = (stepVelLoop s).vx i :=
    congrFun (posFold_frame (List.finRange NUM) (stepVelLoop s)).1 i
  rw [h1, h2, h3]

/-- As `step_px`, for `py`. -/
lemma step_py (s : Stars ℝ) (i : Fin NUM) :
    (step s).py i = s.py i + (step s).vy i * dt := by
  have h1 : (step s).py i =
      (stepVelLoop s).py i + (stepVelLoop s).vy i * dt := by
    unfold step stepPosLoop
    rw [posFold_py (List.finRange NUM) (List.nodup_finRange NUM)
        (stepVelLoop s) i, if_pos (List.mem_finRange i)]
  have h2 : (stepVelLoop s).py i = s.py i :=
    congrFun (velFold_frame (List.finRange NUM) s).2.1 i
  have h3 : (step s).vy i = (stepVelLoop s).vy i :=
    congrFun (posFold_frame (List.finRange NUM) (stepVelLoop s)).2.1 i
  rw [h1, h2, h3]

/-- As `step_px`, for `pz`. -/
lemma step_pz (s : Stars ℝ) (i : Fin NUM) :
    (step s).pz i = s.pz i + (step s).vz i * dt := by
  have h1 : (step s).pz i =
      (stepVelLoop s).pz i + (stepVelLoop s).vz i * dt := by
    unfold step stepPosLoop
    rw [posFold_pz (List.finRange NUM) (List.nodup_finRange NUM)
        (stepVelLoop s) i, if_pos (List.mem_finRange i)]
  have h2 : (stepVelLoop s).pz i = s.pz i :=
    congrFun (velFold_frame (List.finRange NUM) s).2.2.1 i
  have h3 : (step s).vz i = (stepVelLoop s).vz i :=
    congrFun (posFold_frame (List.finRange NUM) (stepVelLoop s)).2.2.1 i
  rw [h1, h2, h3]

/-- `step` never writes the mass array. -/
lemma step_mass (s : Stars ℝ) : (step s).mass = s.mass := by
  unfold step stepPosLoop stepVelLoop
  rw [(posFold_frame (List.finRange NUM) _).2.2.2,
    (velFold_frame (List.finRange NUM) s).2.2.2]

/-! ### Characterisation of `calc` -/

/-- The interleaved accumulation of `calc` equals total kinetic energy minus
the full double sum of potential terms. -/
lemma calcEnergy_eq (s : Stars ℝ) :
    calcEnergy s = (∑ i, kinTerm s i) - ∑ i, ∑ j, potTerm s i j := by
  unfold calcEnergy
  have hinner : ∀ (e : ℝ) (i : Fin NUM),
      (List.finRange NUM).foldl (fun e2 j => e2 - potTerm s i j)
          (e + kinTerm s i) =
        e + (kinTerm s i - ∑ j, potTerm s i j) := by
    intro e i
    rw [foldl_eq_sub_sum (fun e2 j => e2 - potTerm s i j) (potTerm s i)
        (fun _ _ => rfl), Fin.sum_univ_def]
    ring
  rw [foldl_eq_add_sum _ (fun i => kinTerm s i - ∑ j, potTerm s i j) hinner]
  rw [← Fin.sum_univ_def, Finset.sum_sub_distrib]
  ring

/-- The first component of `contrib`, rewritten into the spec's
`d · (G·Δt·mass j) / (d2 · sqrt d2)` form. -/
lemma contrib_fst (s : Stars ℝ) (i j : Fin NUM) :
    (contrib s i j).1 =
      (s.px j - s.px i) *
        (G * dt * s.mass j / (d2 s i j * Real.sqrt (d2 s i j))) := by
  simp only [contrib, G_dt]
  ring

/-- As `contrib_fst`, for the `y` component. -/
lemma contrib_snd₁ (s : Stars ℝ) (i j : Fin NUM) :
    (contrib s i j).2.1 =
      (s.py j - s.py i) *
        (G * dt * s.mass j / (d2 s i j * Real.sqrt (d2 s i j))) := by
  simp only [contrib, G_dt]
  ring

/-- As `contrib_fst`, for the `z` component. -/
lemma contrib_snd₂ (s : Stars ℝ) (i j : Fin NUM) :
    (contrib s i j).2.2 =
      (s.pz j - s.pz i) *
        (G * dt * s.mass j / (d2 s i j * Real.sqrt (d2 s i j))) := by
  simp only [contrib, G_dt]
  ring

/-- The softened squared distance on the diagonal is exactly `eps * eps`,
for any positions. -/
lemma d2_diag (s : Stars ℝ) (i : Fin NUM) : d2 s i i = eps * eps := by
  unfold d2
  ring

/-- The diagonal potential term depends only on the body's mass and the
fixed constants. -/
lemma potTerm_diag (s : Stars ℝ) (i : Fin NUM) :
    potTerm s i i = s.mass i * s.mass i * G * 0.5 / Real.sqrt eps_sqr := by
  unfold potTerm
  rw [d2_diag]
  unfold eps_sqr
  ring

/-- `frand` maps any `std::rand()` result in `[0, RAND_MAX]` into `[-1, 1]`. -/
lemma frand_mem (r rmax : ℕ) (hpos : 0 < rmax) (hr : r ≤ rmax) :
    -1 ≤ frand r rmax ∧ frand r rmax ≤ 1 := by
  unfold frand
  have hq : (0:ℚ) < (rmax:ℚ) := by exact_mod_cast hpos
  have h0 : (0:ℚ) ≤ (r:ℚ) / (rmax:ℚ) := by positivity
  have h1 : (r:ℚ) / (rmax:ℚ) ≤ 1 := by
    rw [div_le_one hq]
    exact_mod_cast hr
  constructor <;> nlinarith

/-! ### The claims -/

/-- C1: one call to `step` adds to each velocity the sum over all `j`
(including `j = i`) of `(position(j) − position(i)) · (G·Δt·mass(j)) /
(|position(j) − position(i)|² + ε²)^{3/2}` (the denominator computed as
`d2 · sqrt d2`), evaluated on the positions held at entry to `step`;
afterwards each position is incremented by the updated velocity times `Δt`. -/
theorem stepUpdateFormula (s : Stars ℝ) (i : Fin NUM) :
    ((step s).vx i = s.vx i + ∑ j, (s.px j - s.px i) *
        (G * dt * s.mass j / (d2 s i j * Real.sqrt (d2 s i j))) ∧
      (step s).vy i = s.vy i + ∑ j, (s.py j - s.py i) *
        (G * dt * s.mass j / (d2 s i j * Real.sqrt (d2 s i j))) ∧
      (step s).vz i = s.vz i + ∑ j, (s.pz j - s.pz i) *
        (G * dt * s.mass j / (d2 s i j * Real.sqrt (d2 s i j)))) ∧
    (step s).px i = s.px i + (step s).vx i * dt ∧
    (step s).py i = s.py i + (step s).vy i * dt ∧
    (step s).pz i = s.pz i + (step s).vz i * dt := by
  refine ⟨⟨?_, ?_, ?_⟩, step_px s i, step_py s i, step_pz s i⟩
  · simp only [step_vx, contrib_fst]
  · simp only [step_vy, contrib_snd₁]
  · simp only [step_vz, contrib_snd₂]

/-- C2: within one call of `step`, every velocity-delta accumulation reads
only the entry position snapshot, no position is written before every
velocity is final, and the position pass uses the just-updated velocities:
the in-place sequential loops of `step` coincide with the spec's
simultaneous two-phase semantics `stepSpec`. -/
theorem stepMatchesSnapshotSpec (s : Stars ℝ) : step s = stepSpec s := by
  ext i
  · simp only [stepSpec]
    rw [step_px s i, step_vx s i]
  · simp only [stepSpec]
    rw [step_py s i, step_vy s i]
  · simp only [stepSpec]
    rw [step_pz s i, step_vz s i]
  · simp only [stepSpec]
    exact step_vx s i
  · simp only [stepSpec]
    exact step_vy s i
  · simp only [stepSpec]
    exact step_vz s i
  · simp only [stepSpec]
    exact congrFun (step_mass s) i

/-- C3: `calc` returns the single scalar
`Σ_i ½·mass(i)·|velocity(i)|² − Σ_i Σ_j ½·G·mass(i)·mass(j) /
sqrt(|position(i) − position(j)|² + ε²)`, the potential double sum running
over all ordered pairs including the diagonal. -/
theorem calcEnergyFormula (s : Stars ℝ) :
    calcEnergy s =
      (∑ i, 0.5 * s.mass i *
          (s.vx i * s.vx i + s.vy i * s.vy i + s.vz i * s.vz i)) -
      ∑ i, ∑ j, 0.5 * G * s.mass i * s.mass j /
        Real.sqrt ((s.px i - s.px j) * (s.px i - s.px j) +
          (s.py i - s.py j) * (s.py i - s.py j) +
          (s.pz i - s.pz j) * (s.pz i - s.pz j) + eps * eps) := by
  rw [calcEnergy_eq]
  congr 1
  · exact Finset.sum_congr rfl fun i _ => by unfold kinTerm; ring
  · refine Finset.sum_congr rfl fun i _ => Finset.sum_congr rfl fun j _ => ?_
    have hd : d2 s i j =
        (s.px i - s.px j) * (s.px i - s.px j) +
        (s.py i - s.py j) * (s.py i - s.py j) +
        (s.pz i - s.pz j) * (s.pz i - s.pz j) + eps * eps := by
      unfold d2
      ring
    unfold potTerm
    rw [hd]
    ring

/-- C5: the `j = i` term of the force sum inside `step` contributes exactly
the zero vector to body `i`'s velocity delta, for any state. -/
theorem selfContributionZero (s : Stars ℝ) (i : Fin NUM) :
    contrib s i i = (0, 0, 0) := by
  simp [contrib]

/-- C7: in every inner-loop iteration of `step` and of `calc`, the softened
squared distance is at least `ε² > 0`, so both `d2 * sqrt d2` (divided into
in `step`) and `sqrt d2` (divided into in `calc`) are strictly positive. -/
theorem softenedDistancePositive (s : Stars ℝ) (i j : Fin NUM) :
    eps_sqr ≤ d2 s i j ∧ 0 < d2 s i j ∧
      0 < d2 s i j * Real.sqrt (d2 s i j) ∧ 0 < Real.sqrt (d2 s i j) := by
  have h1 : eps_sqr ≤ d2 s i j := by
    unfold d2 eps_sqr
    nlinarith [mul_self_nonneg (s.px j - s.px i),
      mul_self_nonneg (s.py j - s.py i), mul_self_nonneg (s.pz j - s.pz i)]
  have heps : (0:ℝ) < eps_sqr := by
    unfold eps_sqr eps
    norm_num
  have h2 : 0 < d2 s i j := lt_of_lt_of_le heps h1
  have h4 : 0 < Real.sqrt (d2 s i j) := Real.sqrt_pos.mpr h2
  exact ⟨h1, h2, mul_pos h2 h4, h4⟩

/-- C8: `calc` writes no element of the state, and two consecutive calls
with no intervening `step` return exactly the same value. -/
theorem calcReadOnlyIdempotent (s : Stars ℝ) :
    (calcRun s).2 = s ∧ (calcRun ((calcRun s).2)).1 = (calcRun s).1 :=
  ⟨rfl, rfl⟩

/-- C9: for distinct bodies `i ≠ j`, the potential contribution `calc`
subtracts for the ordered pair `(i, j)` equals the one for `(j, i)`:
negating the displacement components leaves the squared distance unchanged
and the mass product commutes. -/
theorem potTermSymmetric (s : Stars ℝ) (i j : Fin NUM) (_hij : i ≠ j) :
    potTerm s i j = potTerm s j i := by
  have hd : d2 s i j = d2 s j i := by
    unfold d2
    ring
  unfold potTerm
  rw [hd]
  ring

/-- Witness for C9 at a concrete state and the concrete pair `(0, 1)`. -/
theorem potTermSymmetric_witness :
    (0 : Fin NUM) ≠ 1 ∧ potTerm sZero 0 1 = potTerm sZero 1 0 :=
  ⟨by decide, potTermSymmetric sZero 0 1 (by decide)⟩

/-- C4 counterexample: when every `std::rand()` call returns `0` (a value in
`[0, RAND_MAX]`), `frand()` is exactly `-1` and body 0's mass is
`frand() + 1 = 0`, refuting "mass lies in [1, 2)" and "every mass ≥ 1". -/
theorem initMassBelowOne :
    (init (fun _ => 0) 32767).mass 0 = 0 ∧
      ¬ 1 ≤ (init (fun _ => 0) 32767).mass 0 := by
  refine ⟨?_, ?_⟩ <;> norm_num [init, frand]

/-- C4 amended: assuming every `std::rand()` result lies in `[0, RAND_MAX]`,
after `init` every position and velocity component lies in the closed
interval `[-1, 1]` and every mass lies in `[0, 2]`; all stored values are
(rational, hence finite) numbers. -/
theorem initRanges (seq : ℕ → ℕ) (rmax : ℕ) (hpos : 0 < rmax)
    (hseq : ∀ n, seq n ≤ rmax) (i : Fin NUM) :
    (-1 ≤ (init seq rmax).px i ∧ (init seq rmax).px i ≤ 1) ∧
    (-1 ≤ (init seq rmax).py i ∧ (init seq rmax).py i ≤ 1) ∧
    (-1 ≤ (init seq rmax).pz i ∧ (init seq rmax).pz i ≤ 1) ∧
    (-1 ≤ (init seq rmax).vx i ∧ (init seq rmax).vx i ≤ 1) ∧
    (-1 ≤ (init seq rmax).vy i ∧ (init seq rmax).vy i ≤ 1) ∧
    (-1 ≤ (init seq rmax).vz i ∧ (init seq rmax).vz i ≤ 1) ∧
    (0 ≤ (init seq rmax).mass i ∧ (init seq rmax).mass i ≤ 2) := by
  have h : ∀ n, -1 ≤ frand (seq n) rmax ∧ frand (seq n) rmax ≤ 1 :=
    fun n => frand_mem (seq n) rmax hpos (hseq n)
  refine ⟨⟨?_, ?_⟩, ⟨?_, ?_⟩, ⟨?_, ?_⟩, ⟨?_, ?_⟩, ⟨?_, ?_⟩, ⟨?_, ?_⟩,
    ⟨?_, ?_⟩⟩
  · exact (h (7 * (i : ℕ))).1
  · exact (h (7 * (i : ℕ))).2
  · exact (h (7 * (i : ℕ) + 1)).1
  · exact (h (7 * (i : ℕ) + 1)).2
  · exact (h (7 * (i : ℕ) + 2)).1
  · exact (h (7 * (i : ℕ) + 2)).2
  · exact (h (7 * (i : ℕ) + 3)).1
  · exact (h (7 * (i : ℕ) + 3)).2
  · exact (h (7 * (i : ℕ) + 4)).1
  · exact (h (7 * (i : ℕ) + 4)).2
  · exact (h (7 * (i : ℕ) + 5)).1
  · exact (h (7 * (i : ℕ) + 5)).2
  · have hl := (h (7 * (i : ℕ) + 6)).1
    show 0 ≤ frand (seq (7 * (i : ℕ) + 6)) rmax + 1
    linarith
  · have hu := (h (7 * (i : ℕ) + 6)).2
    show frand (seq (7 * (i : ℕ) + 6)) rmax + 1 ≤ 2
    linarith

/-- Witness for the amended C4 at the concrete all-zero rand sequence. -/
theorem initRanges_witness :
    0 ≤ (init (fun _ => 0) 32767).mass 0 ∧
      (init (fun _ => 0) 32767).mass 0 ≤ 2 := by
  have h := initRanges (fun _ => 0) 32767 (by norm_num)
    (fun n => by norm_num) 0
  exact ⟨h.2.2.2.2.2.2.1, h.2.2.2.2.2.2.2⟩

/-- C10 counterexample: at a state with a zero mass (reachable from `init`,
since `frand() + 1` can be `0`), the diagonal potential term of `calc` is
`0`, not a nonzero self-energy. -/
theorem diagTermZeroMass : potTerm sZero 0 0 = 0 := by
  simp [potTerm, sZero]

/-- C10 amended: each diagonal term of `calc`'s potential sum subtracts
exactly `mass(i)² · G · 0.5 / sqrt(ε²)` — nonzero whenever `mass(i) ≠ 0` —
a value computed solely from `mass(i)` and the fixed constants; `step` never
writes the mass array, so the total diagonal offset is identical before and
after any number of `step` calls. -/
theorem diagTermInvariant (s : Stars ℝ) (i : Fin NUM) :
    potTerm s i i = s.mass i * s.mass i * G * 0.5 / Real.sqrt eps_sqr ∧
    (s.mass i ≠ 0 → potTerm s i i ≠ 0) ∧
    (∀ n, (step^[n] s).mass = s.mass) ∧
    (∀ n, (∑ k, potTerm (step^[n] s) k k) = ∑ k, potTerm s k k) := by
  have hmass : ∀ n, (step^[n] s).mass = s.mass := by
    intro n
    induction n with
    | zero => rfl
    | succ n ih => rw [Function.iterate_succ_apply', step_mass, ih]
  have heps : eps ≠ 0 := by
    unfold eps
    norm_num
  have hsqrt : Real.sqrt eps_sqr = eps := by
    unfold eps_sqr
    exact Real.sqrt_mul_self (by unfold eps; norm_num)
  refine ⟨potTerm_diag s i, ?_, hmass, ?_⟩
  · intro hm
    rw [potTerm_diag, hsqrt]
    have hG : G ≠ 0 := by
      unfold G
      norm_num
    exact div_ne_zero
      (mul_ne_zero (mul_ne_zero (mul_ne_zero hm hm) hG) (by norm_num)) heps
  · intro n
    refine Finset.sum_congr rfl fun k _ => ?_
    rw [potTerm_diag, potTerm_diag, congrFun (hmass n) k]

/-- Witness for the amended C10 at a concrete unit-mass state. -/
theorem diagTermInvariant_witness :
    sOne.mass 0 ≠ 0 ∧ potTerm sOne 0 0 ≠ 0 := by
  have hm : sOne.mass 0 ≠ 0 := by
    simp [sOne]
  exact ⟨hm, (diagTermInvariant sOne 0).2.1 hm⟩
